import Mathlib

/-!
Verification of the document chunking engine of the Kyc repository
(`src/lib/awsTitan.ts`): sentence-aware text segmentation with overlap
(`chunkText`, `getOverlapText`), page-aware chunking (`chunkByPages`) and
small-chunk merging (`mergeSmallChunks`).

Strings are modelled as `List Char`; JavaScript string operations
(`trim`, `split(/[.!?]+/)`, `slice`, `lastIndexOf`, template literals)
are embedded explicitly below.
-/

namespace AwsTitan

/-- The ECMAScript whitespace set used by `String.prototype.trim`. -/
def jsIsWS (c : Char) : Bool :=
  c = ' ' || c = '\t' || c = '\n' || c = '\r' || c = '\x0b' || c = '\x0c' ||
  c = '\u00A0' || c = '\u1680' || c = '\u2000' || c = '\u2001' || c = '\u2002' ||
  c = '\u2003' || c = '\u2004' || c = '\u2005' || c = '\u2006' || c = '\u2007' ||
  c = '\u2008' || c = '\u2009' || c = '\u200A' || c = '\u2028' || c = '\u2029' ||
  c = '\u202F' || c = '\u205F' || c = '\u3000' || c = '\uFEFF'

/-- JavaScript `s.trim()`: strip leading and trailing whitespace. -/
def trimL (l : List Char) : List Char :=
  ((l.dropWhile jsIsWS).reverse.dropWhile jsIsWS).reverse

/-- A sentence-terminator character, the class `[.!?]` of the split regex. -/
def isTerm (c : Char) : Bool := c = '.' || c = '!' || c = '?'

/-- JavaScript `text.split(/[.!?]+/)`: split on maximal runs of terminators.
`inGap = true` means the scanner stands right after a terminator run;
`acc` holds the current segment reversed. -/
def splitAux : List Char → Bool → List Char → List (List Char)
  | [], inGap, acc => if inGap then [[]] else [acc.reverse]
  | c :: rest, inGap, acc =>
    if inGap then
      if isTerm c then splitAux rest true []
      else splitAux rest false [c]
    else
      if isTerm c then acc.reverse :: splitAux rest true []
      else splitAux rest false (c :: acc)

/-- `text.split(/[.!?]+/)`. -/
def splitTerminators (l : List Char) : List (List Char) := splitAux l false []

/-- `text.split(/[.!?]+/).filter(s => s.trim().length > 0)` — the sentence list
`chunkText` iterates over. -/
def sentencesOf (text : List Char) : List (List Char) :=
  (splitTerminators text).filter (fun s => (trimL s).length > 0)

/-- Decimal digit character, `'0'` + d. -/
def digitCh (d : Nat) : Char := Char.ofNat (48 + d)

/-- Decimal representation of a natural number, fuelled so that it is
structurally recursive (`fuel > n` suffices). -/
def natReprAux : Nat → Nat → List Char
  | 0, _ => []
  | fuel + 1, n =>
    if n < 10 then [digitCh n]
    else natReprAux fuel (n / 10) ++ [digitCh (n % 10)]

/-- JavaScript `${n}` for a non-negative integer: decimal, no leading zeros. -/
def natRepr (n : Nat) : List Char := natReprAux (n + 1) n

/-- Convenience: the character list of a string literal. -/
def strL (s : String) : List Char := s.toList

/-- `DocumentChunk.metadata` from `src/lib/awsTitan.ts`.  `totalChunks` is an
integer because `mergeSmallChunks` decrements it. -/
structure ChunkMetadata where
  filename : List Char
  page : Option Nat
  chunkIndex : Nat
  totalChunks : Int
  deriving DecidableEq, Repr

/-- `DocumentChunk` from `src/lib/awsTitan.ts`. -/
structure DocumentChunk where
  id : List Char
  content : List Char
  metadata : ChunkMetadata
  deriving DecidableEq, Repr

/-- `ChunkingOptions` from `src/lib/awsTitan.ts` (the record after merging the
caller's partial options over the defaults). -/
structure ChunkingOptions where
  chunkSize : Nat
  chunkOverlap : Nat
  minChunkSize : Nat
  deriving DecidableEq, Repr

/-- `DEFAULT_CHUNKING_OPTIONS`. -/
def DEFAULT_CHUNKING_OPTIONS : ChunkingOptions :=
  { chunkSize := 1000, chunkOverlap := 200, minChunkSize := 100 }

/-- JavaScript `l.slice(start)` (single-argument slice): a negative `start`
counts from the end, clamped at 0; `slice(-0)` is `slice(0)`, the whole
string.  `List.drop` already clamps an index beyond the length. -/
def jsSliceFrom (l : List Char) (start : Int) : List Char :=
  if start < 0 then l.drop ((l.length : Int) + start).toNat
  else l.drop start.toNat

/-- JavaScript `l.lastIndexOf(c)`: index of the last occurrence, `-1` if
absent. -/
def lastIndexOf : List Char → Char → Int
  | [], _ => -1
  | a :: rest, c =>
    let r := lastIndexOf rest c
    if 0 ≤ r then r + 1
    else if a = c then 0 else -1

/-- `getOverlapText` from `src/lib/awsTitan.ts`: overlap seed taken from the
end of a flushed chunk. -/
def getOverlapText (text : List Char) (overlapSize : Nat) : List Char :=
  if text.length ≤ overlapSize then text
  else
    let endText := jsSliceFrom text (-(overlapSize : Int))
    let lastSentenceStart := lastIndexOf endText '.'
    if 0 < lastSentenceStart then
      trimL (jsSliceFrom endText (lastSentenceStart + 1))
    else endText

/-- The chunk record pushed by `chunkText` (`totalChunks` placeholder 0). -/
def mkChunk (filename current : List Char) (chunkIndex : Nat) : DocumentChunk :=
  { id := filename ++ strL "-chunk-" ++ natRepr chunkIndex,
    content := trimL current,
    metadata :=
      { filename := filename, page := none, chunkIndex := chunkIndex,
        totalChunks := 0 } }

/-- State of `chunkText`'s sentence loop: chunks pushed so far, the
accumulator string `currentChunk`, and `chunkIndex`. -/
structure ChunkState where
  chunks : List DocumentChunk
  current : List Char
  chunkIndex : Nat
  deriving DecidableEq, Repr

/-- One iteration of the `for (const sentence of sentences)` loop of
`chunkText`. -/
def stepSentence (filename : List Char) (opts : ChunkingOptions)
    (st : ChunkState) (sentence : List Char) : ChunkState :=
  let sentenceText := trimL sentence ++ ['.']
  if opts.chunkSize < st.current.length + sentenceText.length ∧
      opts.minChunkSize ≤ st.current.length then
    { chunks := st.chunks ++ [mkChunk filename st.current st.chunkIndex],
      current := getOverlapText st.current opts.chunkOverlap ++ ' ' :: sentenceText,
      chunkIndex := st.chunkIndex + 1 }
  else
    { st with
      current := st.current ++ (if st.current.isEmpty then [] else [' ']) ++ sentenceText }

/-- The sentence loop of `chunkText` followed by the push of the last chunk
(`if (currentChunk.trim().length > 0)`). -/
def chunkCore (text filename : List Char) (opts : ChunkingOptions) :
    List DocumentChunk :=
  let st := (sentencesOf text).foldl (stepSentence filename opts)
    { chunks := [], current := [], chunkIndex := 0 }
  if 0 < (trimL st.current).length then
    st.chunks ++ [mkChunk filename st.current st.chunkIndex]
  else st.chunks

/-- The final pass of `chunkText`: set every chunk's `totalChunks` to the
count of chunks produced. -/
def finalizeTotal (chunks : List DocumentChunk) : List DocumentChunk :=
  chunks.map (fun c =>
    { c with metadata := { c.metadata with totalChunks := (chunks.length : Int) } })

/-- `chunkText` from `src/lib/awsTitan.ts`. -/
def chunkText (text filename : List Char) (opts : ChunkingOptions) :
    List DocumentChunk :=
  if text.isEmpty ∨ (trimL text).length = 0 then []
  else if (sentencesOf text).isEmpty then []
  else finalizeTotal (chunkCore text filename opts)

/-- JavaScript `Array.prototype.map((x, i) => ...)`, with a running index. -/
def mapIdxFrom (f : Nat → α → β) : Nat → List α → List β
  | _, [] => []
  | k, a :: as => f k a :: mapIdxFrom f (k + 1) as

/-- The per-chunk relabelling `chunkByPages` performs:
`{...chunk, id: fresh, metadata: {...chunk.metadata, page}}`. -/
def relabelChunk (filename : List Char) (pageNumber chunkIndex : Nat)
    (chunk : DocumentChunk) : DocumentChunk :=
  { chunk with
    id := filename ++ strL "-page" ++ natRepr pageNumber ++ strL "-chunk-" ++
      natRepr chunkIndex,
    metadata := { chunk.metadata with page := some pageNumber } }

/-- `chunkByPages` from `src/lib/awsTitan.ts`: per-page chunking, relabelling,
and accumulation of `allChunks` by repeated `push`. -/
def chunkByPages (pages : List (List Char)) (filename : List Char)
    (opts : ChunkingOptions) : List DocumentChunk :=
  (mapIdxFrom (fun pageIndex pageText =>
      mapIdxFrom (fun chunkIndex chunk =>
        relabelChunk filename (pageIndex + 1) chunkIndex chunk)
        0 (chunkText pageText filename opts))
    0 pages).foldl (fun allChunks pageChunks => allChunks ++ pageChunks) []

/-- The inner `while` loop of `mergeSmallChunks`: starting from
`currentChunk = c`, absorb following chunks while `c` is below `minSize` and
the next chunk has the same filename.  Returns the merged chunk and the
unconsumed remainder. -/
def mergeRun (c : DocumentChunk) (rest : List DocumentChunk) (minSize : Nat) :
    DocumentChunk × List DocumentChunk :=
  match rest with
  | [] => (c, [])
  | next :: rest' =>
    if c.content.length < minSize ∧ next.metadata.filename = c.metadata.filename then
      mergeRun
        { c with
          content := c.content ++ ' ' :: next.content,
          metadata := { c.metadata with totalChunks := c.metadata.totalChunks - 1 } }
        rest' minSize
    else (c, rest)

/-- Outer loop of `mergeSmallChunks`, fuelled so that it is structurally
recursive (`fuel ≥ chunks.length` suffices, since each iteration consumes at
least one input chunk). -/
def mergeSmallChunksAux : Nat → List DocumentChunk → Nat → List DocumentChunk
  | 0, chunks, _ => chunks
  | _ + 1, [], _ => []
  | fuel + 1, c :: rest, minSize =>
    (mergeRun c rest minSize).1 ::
      mergeSmallChunksAux fuel (mergeRun c rest minSize).2 minSize

/-- `mergeSmallChunks` from `src/lib/awsTitan.ts`. -/
def mergeSmallChunks (chunks : List DocumentChunk) (minSize : Nat) :
    List DocumentChunk :=
  mergeSmallChunksAux chunks.length chunks minSize

/-- Space-join of the contents of a chunk list (as in merging, a single `' '`
between consecutive contents). -/
def joinContents : List DocumentChunk → List Char
  | [] => []
  | [c] => c.content
  | c :: c' :: rest => c.content ++ ' ' :: joinContents (c' :: rest)

/-- The position of the last `'.'` in a string, `none` when no `'.'` occurs —
the "p" of the specification's description of the overlap rule. -/
def lastDotPos : List Char → Option Nat
  | [] => none
  | c :: rest =>
    match lastDotPos rest with
    | some p => some (p + 1)
    | none => if c = '.' then some 0 else none

/-- The overlap rule as the specification words it: if the content length is
at most `N` return it unchanged; otherwise let `s` be the last `N` characters
and `p` the position of the last `'.'` in `s`; return the text of `s` after
position `p`, trimmed, when `p > 0`, and `s` unchanged when no `'.'` occurs in
`s` or the last `'.'` is at position 0. -/
def getOverlapSpec (text : List Char) (N : Nat) : List Char :=
  if text.length ≤ N then text
  else
    let s := (text.reverse.take N).reverse
    match lastDotPos s with
    | some p => if 0 < p then trimL (s.drop (p + 1)) else s
    | none => s

/-- The page/chunk id scheme of `chunkByPages`:
`${filename}-page${pageNumber}-chunk-${chunkIndex}`. -/
def pageIdOf (filename : List Char) (pageNumber chunkIndex : Nat) : List Char :=
  filename ++ strL "-page" ++ natRepr pageNumber ++ strL "-chunk-" ++
    natRepr chunkIndex

/-- The page adapter as the specification words it: the concatenation, in page
order, of `chunkText` applied to each page, where the chunk at position `i` of
page `p` (pages 1-indexed) has its id replaced by
`${filename}-page${p}-chunk-${i}` and `metadata.page` set to `p`, content and
the other metadata fields unchanged. -/
def chunkByPagesSpec (pages : List (List Char)) (filename : List Char)
    (opts : ChunkingOptions) : List DocumentChunk :=
  (pages.enum.map (fun pe =>
    (chunkText pe.2 filename opts).enum.map (fun ce =>
      { id := pageIdOf filename (pe.1 + 1) ce.1,
        content := ce.2.content,
        metadata :=
          { filename := ce.2.metadata.filename,
            page := some (pe.1 + 1),
            chunkIndex := ce.2.metadata.chunkIndex,
            totalChunks := ce.2.metadata.totalChunks } }))).flatten

/-- The sentence-length slack of a text: the maximum, over the sentences the
splitter yields, of the trimmed sentence length plus one for the re-appended
`'.'`. -/
def maxSentenceLen (text : List Char) : Nat :=
  ((sentencesOf text).map (fun s => (trimL s).length + 1)).foldr max 0

/-- Decimal reading of a digit string; left inverse of `natRepr`. -/
def evalD (l : List Char) : Nat :=
  l.foldl (fun a c => a * 10 + (c.toNat - 48)) 0

/-- The id scheme of `chunkText`: `${filename}-chunk-${chunkIndex}`. -/
def chunkIdOf (filename : List Char) (chunkIndex : Nat) : List Char :=
  filename ++ strL "-chunk-" ++ natRepr chunkIndex

/-- The three-chunk list of the specification's merge example, with an
arbitrary third content `s`. -/
def mergeExample (s : List Char) : List DocumentChunk :=
  [⟨strL "a", strL "Short", ⟨strL "t", none, 0, 3⟩⟩,
   ⟨strL "b", strL "Also short", ⟨strL "t", none, 1, 3⟩⟩,
   ⟨strL "c", s, ⟨strL "t", none, 2, 3⟩⟩]

/-! ### Basic facts about `mergeRun` and `mergeSmallChunks` -/

theorem mergeRun_snd_length (c : DocumentChunk) (rest : List DocumentChunk)
    (m : Nat) : (mergeRun c rest m).2.length ≤ rest.length := by
  induction rest generalizing c with
  | nil => simp [mergeRun]
  | cons next rest' ih =>
    rw [mergeRun]
    split
    · exact le_trans (ih _) (by simp)
    · simp

theorem mergeSmallChunksAux_fuel (fuel₁ : Nat) :
    ∀ (fuel₂ : Nat) (cs : List DocumentChunk) (m : Nat),
      cs.length ≤ fuel₁ → cs.length ≤ fuel₂ →
      mergeSmallChunksAux fuel₁ cs m = mergeSmallChunksAux fuel₂ cs m := by
  induction fuel₁ with
  | zero =>
    intro fuel₂ cs m h1 _
    have hcs : cs = [] := List.eq_nil_of_length_eq_zero (Nat.le_zero.mp h1)
    subst hcs
    cases fuel₂ <;> rfl
  | succ f ih =>
    intro fuel₂ cs m h1 h2
    cases cs with
    | nil => cases fuel₂ <;> rfl
    | cons c rest =>
      cases fuel₂ with
      | zero => simp at h2
      | succ f2 =>
        simp only [mergeSmallChunksAux]
        congr 1
        exact ih f2 _ m
          (le_trans (mergeRun_snd_length c rest m) (by simpa using h1))
          (le_trans (mergeRun_snd_length c rest m) (by simpa using h2))

theorem mergeSmallChunks_nil (m : Nat) : mergeSmallChunks [] m = [] := rfl

theorem mergeSmallChunks_cons (c : DocumentChunk) (rest : List DocumentChunk)
    (m : Nat) :
    mergeSmallChunks (c :: rest) m =
      (mergeRun c rest m).1 :: mergeSmallChunks (mergeRun c rest m).2 m := by
  show mergeSmallChunksAux (rest.length + 1) (c :: rest) m = _
  simp only [mergeSmallChunksAux]
  congr 1
  exact mergeSmallChunksAux_fuel rest.length _ _ m
    (mergeRun_snd_length c rest m) le_rfl

/-! ### C1 -/

/-- C1 (counterexample): on the spec's three-chunk example with the third
content of length 20, the merged result's first content is not
`"Short Also short"` — after absorbing the second chunk the running content
(16 characters) is still below `minSize = 20`, so the third chunk is absorbed
too. -/
theorem C1_counterexample :
    ¬ ((mergeSmallChunks (mergeExample (strL "aaaaaaaaaaaaaaaaaaaa")) 20).length < 3 ∧
      ((mergeSmallChunks (mergeExample (strL "aaaaaaaaaaaaaaaaaaaa")) 20).map
          (fun c => c.content)).head? = some (strL "Short Also short")) := by
  decide

/-- C1 (amended): calling `mergeSmallChunks` on the three-chunk list
`[{content:"Short", filename:"t"}, {content:"Also short", filename:"t"},
{content: s, filename:"t"}]` with `minSize = 20` and `s` of length at least 20
returns a single chunk (hence a result strictly shorter than the input), whose
content is `"Short Also short "` followed by the third chunk's content. -/
theorem C1_merge_absorbs_all (s : List Char) (_h : 20 ≤ s.length) :
    (mergeSmallChunks (mergeExample s) 20).length < 3 ∧
    (mergeSmallChunks (mergeExample s) 20).map (fun c => c.content) =
      [strL "Short Also short " ++ s] := by
  have hres : (mergeSmallChunks (mergeExample s) 20).map (fun c => c.content) =
      [strL "Short Also short " ++ s] := rfl
  refine ⟨?_, hres⟩
  have hlen : (mergeSmallChunks (mergeExample s) 20).length = 1 := rfl
  omega

/-- Witness for C1: the amended statement at a concrete third content. -/
theorem C1_merge_absorbs_all_witness :
    20 ≤ (strL "aaaaaaaaaaaaaaaaaaaa").length ∧
    ((mergeSmallChunks (mergeExample (strL "aaaaaaaaaaaaaaaaaaaa")) 20).length < 3 ∧
     (mergeSmallChunks (mergeExample (strL "aaaaaaaaaaaaaaaaaaaa")) 20).map
        (fun c => c.content) =
       [strL "Short Also short " ++ strL "aaaaaaaaaaaaaaaaaaaa"]) :=
  ⟨by decide, C1_merge_absorbs_all (strL "aaaaaaaaaaaaaaaaaaaa") (by decide)⟩

/-! ### C2 -/

theorem lastIndexOf_eq_lastDotPos (s : List Char) :
    lastIndexOf s '.' =
      match lastDotPos s with
      | some p => (p : Int)
      | none => -1 := by
  induction s with
  | nil => rfl
  | cons a rest ih =>
    rw [lastIndexOf, ih]
    cases h : lastDotPos rest with
    | some p =>
      simp only [lastDotPos, h]
      rw [if_pos (by positivity)]
      push_cast
      ring
    | none =>
      by_cases ha : a = '.' <;>
        simp [lastDotPos, h, ha]

theorem jsSliceFrom_nonneg (l : List Char) (k : Nat) :
    jsSliceFrom l (k : Int) = l.drop k := by
  unfold jsSliceFrom
  rw [if_neg (by omega)]
  simp

/-- C2 (counterexample): at `text = "ab"` and `N = 0` the claim's description
fails: the text is longer than `N`, the last 0 characters contain no `'.'`,
yet `getOverlapText` does not return that empty suffix (JavaScript
`slice(-0)` is `slice(0)`, the whole string). -/
theorem C2_counterexample :
    getOverlapText (strL "ab") 0 ≠ getOverlapSpec (strL "ab") 0 := by
  decide

/-- C2 (amended): for every string `text` and every overlap size `N ≥ 1`:
if the text's length is at most `N`, `getOverlapText text N` returns `text`
unchanged; otherwise, letting `s` be the last `N` characters of `text` and `p`
the position of the last `'.'` in `s`, it returns the substring of `s` after
position `p`, trimmed, when `p > 0`, and returns `s` unchanged when no `'.'`
occurs in `s` or the last `'.'` is at position 0 (the statement `getOverlapSpec`
of that rule). -/
theorem C2_overlap_eq_spec (text : List Char) (N : Nat) (hN : 1 ≤ N) :
    getOverlapText text N = getOverlapSpec text N := by
  unfold getOverlapText getOverlapSpec
  by_cases hlen : text.length ≤ N
  · simp [hlen]
  · rw [if_neg hlen, if_neg hlen]
    push_neg at hlen
    have hend : jsSliceFrom text (-(N : Int)) = (text.reverse.take N).reverse := by
      unfold jsSliceFrom
      rw [if_pos (by omega : -(N : Int) < 0), List.take_reverse,
        List.reverse_reverse]
      congr 1
      omega
    rw [hend]
    dsimp only
    rw [lastIndexOf_eq_lastDotPos]
    cases h : lastDotPos ((text.reverse.take N).reverse) with
    | none => simp
    | some p =>
      simp only
      have hcast : ((p : Int) + 1) = ((p + 1 : Nat) : Int) := by push_cast; ring
      by_cases hp : 0 < p
      · rw [if_pos (by exact_mod_cast hp), if_pos hp, hcast, jsSliceFrom_nonneg]
      · rw [if_neg (show ¬ (0 : Int) < (p : Int) from by exact_mod_cast hp),
          if_neg hp]

/-- Witness for C2: the amended statement at a concrete text and overlap
size. -/
theorem C2_overlap_eq_spec_witness :
    1 ≤ 4 ∧ getOverlapText (strL "one. two three") 4 = getOverlapSpec (strL "one. two three") 4 :=
  ⟨by decide, C2_overlap_eq_spec (strL "one. two three") 4 (by decide)⟩

/-! ### C3 -/

/-- C3: every chunk returned by `chunkText` carries `totalChunks` equal to the
length of the returned list. -/
theorem C3_totalChunks (text filename : List Char) (opts : ChunkingOptions)
    (c : DocumentChunk) (hc : c ∈ chunkText text filename opts) :
    c.metadata.totalChunks = ((chunkText text filename opts).length : Int) := by
  unfold chunkText at hc ⊢
  split at hc
  · exact absurd hc (by simp)
  · rename_i h1
    split at hc
    · exact absurd hc (by simp)
    · rename_i h2
      rw [if_neg h1, if_neg h2]
      unfold finalizeTotal at hc ⊢
      rw [List.mem_map] at hc
      obtain ⟨b, _, rfl⟩ := hc
      simp

/-- Witness for C3 at a concrete text. -/
theorem C3_totalChunks_witness :
    (⟨strL "f-chunk-0", strL "Hello there.", ⟨strL "f", none, 0, 1⟩⟩ :
        DocumentChunk) ∈
      chunkText (strL "Hello there.") (strL "f") DEFAULT_CHUNKING_OPTIONS ∧
    (⟨strL "f-chunk-0", strL "Hello there.", ⟨strL "f", none, 0, 1⟩⟩ :
        DocumentChunk).metadata.totalChunks =
      ((chunkText (strL "Hello there.") (strL "f")
          DEFAULT_CHUNKING_OPTIONS).length : Int) :=
  ⟨by decide, C3_totalChunks _ _ _ _ (by decide)⟩

/-! ### C8 -/

/-- C8: `chunkText` returns the empty list whenever the input text is empty,
trims to nothing, or yields no non-whitespace segment when split on
terminator runs. -/
theorem C8_degenerate_empty (text filename : List Char) (opts : ChunkingOptions)
    (h : text = [] ∨ trimL text = [] ∨ sentencesOf text = []) :
    chunkText text filename opts = [] := by
  unfold chunkText
  rcases h with h | h | h
  · subst h
    rfl
  · rw [if_pos (Or.inr (by rw [h]; rfl))]
  · by_cases h1 : text.isEmpty ∨ (trimL text).length = 0
    · rw [if_pos h1]
    · rw [if_neg h1, if_pos (by rw [h]; rfl)]

/-- Witness for C8 at the whitespace-only input `"   "`. -/
theorem C8_degenerate_empty_witness :
    ((strL "   ") = [] ∨ trimL (strL "   ") = [] ∨ sentencesOf (strL "   ") = []) ∧
    chunkText (strL "   ") (strL "f") DEFAULT_CHUNKING_OPTIONS = [] :=
  ⟨by decide, C8_degenerate_empty _ _ _ (by decide)⟩

/-! ### C7 -/

theorem splitAux_no_term (l : List Char) (h : ∀ c ∈ l, ¬ isTerm c)
    (acc : List Char) : splitAux l false acc = [acc.reverse ++ l] := by
  induction l generalizing acc with
  | nil => simp [splitAux]
  | cons c rest ih =>
    have hc : ¬ isTerm c := h c (by simp)
    rw [splitAux]
    simp only [Bool.false_eq_true, if_false, hc, ite_false]
    rw [ih (fun x hx => h x (by simp [hx])) (c :: acc)]
    simp

theorem sentencesOf_no_term (text : List Char) (h1 : trimL text ≠ [])
    (h2 : ∀ c ∈ text, ¬ isTerm c) : sentencesOf text = [text] := by
  unfold sentencesOf splitTerminators
  rw [splitAux_no_term text h2 []]
  simp only [List.reverse_nil, List.nil_append, List.filter]
  rw [decide_eq_true (List.length_pos.mpr h1)]

theorem trimL_eq_nil_iff (l : List Char) : trimL l = [] ↔ ∀ c ∈ l, jsIsWS c := by
  unfold trimL
  rw [List.reverse_eq_nil_iff, List.dropWhile_eq_nil_iff]
  simp only [List.mem_reverse]
  constructor
  · intro h c hc
    conv at hc => rw [← List.takeWhile_append_dropWhile (p := jsIsWS) (l := l)]
    rcases List.mem_append.mp hc with h' | h'
    · exact List.mem_takeWhile_imp h'
    · exact h c h'
  · intro h c hc
    exact h c ((List.dropWhile_sublist jsIsWS).subset hc)

theorem trimL_append_dot_ne_nil (l : List Char) : trimL (l ++ ['.']) ≠ [] := by
  rw [Ne, trimL_eq_nil_iff]
  intro h
  exact absurd (h '.' (by simp)) (by decide)

/-- C7: `chunkText "This is a single sentence." f` with default options returns
exactly one chunk whose trimmed content is the input sentence; and every text
that trims to something non-empty and contains no terminator character
produces exactly one chunk. -/
theorem C7_single_sentence :
    (∀ filename : List Char,
      (chunkText (strL "This is a single sentence.") filename
          DEFAULT_CHUNKING_OPTIONS).map (fun c => trimL c.content) =
        [strL "This is a single sentence."]) ∧
    (∀ text filename : List Char, trimL text ≠ [] → (∀ c ∈ text, ¬ isTerm c) →
      (chunkText text filename DEFAULT_CHUNKING_OPTIONS).length = 1) := by
  constructor
  · intro filename
    rfl
  · intro text filename h1 h2
    have hs : sentencesOf text = [text] := sentencesOf_no_term text h1 h2
    have htext : text ≠ [] := by
      intro h
      rw [h] at h1
      exact h1 rfl
    unfold chunkText
    rw [if_neg (by simp [List.isEmpty_iff, htext, List.length_eq_zero, h1]),
      if_neg (by rw [hs]; simp)]
    unfold finalizeTotal
    rw [List.length_map]
    have hstep : stepSentence filename DEFAULT_CHUNKING_OPTIONS
        ⟨[], [], 0⟩ text = ⟨[], trimL text ++ ['.'], 0⟩ := by
      unfold stepSentence
      dsimp only
      rw [if_neg (by simp [DEFAULT_CHUNKING_OPTIONS])]
      simp
    unfold chunkCore
    rw [hs]
    simp only [List.foldl_cons, List.foldl_nil, hstep]
    rw [if_pos (List.length_pos.mpr (trimL_append_dot_ne_nil (trimL text)))]
    simp

/-- Witness for C7: the no-terminator case at a concrete text. -/
theorem C7_single_sentence_witness :
    trimL (strL "hello") ≠ [] ∧ (∀ c ∈ strL "hello", ¬ isTerm c) ∧
    (chunkText (strL "hello") (strL "f") DEFAULT_CHUNKING_OPTIONS).length = 1 :=
  ⟨by decide, by decide,
    C7_single_sentence.2 (strL "hello") (strL "f") (by decide) (by decide)⟩

/-! ### C10 -/

theorem joinContents_cons (a : DocumentChunk) (l : List DocumentChunk) :
    joinContents (a :: l) =
      a.content ++ (if l.isEmpty then [] else ' ' :: joinContents l) := by
  cases l <;> simp [joinContents]

theorem mergeSmallChunks_isEmpty (cs : List DocumentChunk) (m : Nat) :
    (mergeSmallChunks cs m).isEmpty = cs.isEmpty := by
  cases cs with
  | nil => rfl
  | cons c rest =>
    rw [mergeSmallChunks_cons]
    rfl

theorem mergeRun_joinContents (c : DocumentChunk) (rest : List DocumentChunk)
    (m : Nat) :
    joinContents ((mergeRun c rest m).1 :: (mergeRun c rest m).2) =
      joinContents (c :: rest) := by
  induction rest generalizing c with
  | nil => rfl
  | cons next rest' ih =>
    rw [mergeRun]
    split
    · rw [ih]
      simp [joinContents_cons, List.append_assoc]
    · rfl

theorem mergeSmallChunks_joinContents (cs : List DocumentChunk) (m : Nat) :
    joinContents (mergeSmallChunks cs m) = joinContents cs := by
  match cs with
  | [] => rfl
  | c :: rest =>
    have ih := mergeSmallChunks_joinContents (mergeRun c rest m).2 m
    rw [mergeSmallChunks_cons]
    calc joinContents ((mergeRun c rest m).1 ::
            mergeSmallChunks (mergeRun c rest m).2 m)
        = joinContents ((mergeRun c rest m).1 :: (mergeRun c rest m).2) := by
          rw [joinContents_cons, joinContents_cons,
            mergeSmallChunks_isEmpty, ih]
      _ = joinContents (c :: rest) := mergeRun_joinContents c rest m
termination_by cs.length
decreasing_by
  simp only [List.length_cons]
  have := mergeRun_snd_length c rest m
  omega

/-- C10: merging preserves all chunk text — the single-space join of the
merged chunks' contents equals the single-space join of the input chunks'
contents, for every chunk list and minimum size. -/
theorem C10_merge_preserves_text (cs : List DocumentChunk) (m : Nat) :
    joinContents (mergeSmallChunks cs m) = joinContents cs :=
  mergeSmallChunks_joinContents cs m

/-! ### C5 -/

/-- The stop condition of the merge loop, as a relation between a chunk and
its successor: a chunk still below `minSize` is not followed by a chunk of the
same filename. -/
def mergeOk (m : Nat) (a b : DocumentChunk) : Prop :=
  a.content.length < m → b.metadata.filename ≠ a.metadata.filename

theorem mergeRun_fst_filename (c : DocumentChunk) (rest : List DocumentChunk)
    (m : Nat) :
    (mergeRun c rest m).1.metadata.filename = c.metadata.filename := by
  induction rest generalizing c with
  | nil => rfl
  | cons next rest' ih =>
    rw [mergeRun]
    split
    · rw [ih]
    · rfl

theorem mergeRun_stop (c : DocumentChunk) (rest : List DocumentChunk) (m : Nat)
    (n : DocumentChunk) (hn : (mergeRun c rest m).2.head? = some n) :
    ¬((mergeRun c rest m).1.content.length < m ∧
      n.metadata.filename = (mergeRun c rest m).1.metadata.filename) := by
  induction rest generalizing c with
  | nil => simp [mergeRun] at hn
  | cons next rest' ih =>
    rw [mergeRun] at hn ⊢
    by_cases hcond : c.content.length < m ∧
        next.metadata.filename = c.metadata.filename
    · rw [if_pos hcond] at hn ⊢
      exact ih _ hn
    · rw [if_neg hcond] at hn ⊢
      simp only [List.head?_cons, Option.some.injEq] at hn
      subst hn
      exact hcond

theorem mergeSmallChunks_chain (cs : List DocumentChunk) (m : Nat) :
    List.Chain' (mergeOk m) (mergeSmallChunks cs m) := by
  match cs with
  | [] => simp [mergeSmallChunks_nil]
  | c :: rest =>
    rw [mergeSmallChunks_cons, List.chain'_cons']
    constructor
    · intro y hy
      cases hrest : (mergeRun c rest m).2 with
      | nil =>
        rw [hrest, mergeSmallChunks_nil] at hy
        simp at hy
      | cons n rest'' =>
        rw [hrest, mergeSmallChunks_cons] at hy
        simp only [List.head?_cons, Option.mem_def, Option.some.injEq] at hy
        subst hy
        intro hlen heq
        have hstop := mergeRun_stop c rest m n (by rw [hrest]; rfl)
        rw [mergeRun_fst_filename] at heq
        exact hstop ⟨hlen, heq⟩
    · exact mergeSmallChunks_chain (mergeRun c rest m).2 m
termination_by cs.length
decreasing_by
  simp only [List.length_cons]
  have := mergeRun_snd_length c rest m
  omega

theorem mergeSmallChunks_of_chain (cs : List DocumentChunk) (m : Nat)
    (h : List.Chain' (mergeOk m) cs) : mergeSmallChunks cs m = cs := by
  match cs with
  | [] => rfl
  | c :: rest =>
    rw [mergeSmallChunks_cons]
    have hrun : mergeRun c rest m = (c, rest) := by
      cases rest with
      | nil => rfl
      | cons next rest' =>
        rw [mergeRun, if_neg]
        rintro ⟨hlen, heq⟩
        exact (List.chain'_cons'.mp h).1 next rfl hlen heq
    rw [hrun]
    rw [mergeSmallChunks_of_chain rest m (List.chain'_cons'.mp h).2]

/-- C5: `mergeSmallChunks` is idempotent, and in its output no chunk still
below `minSize` is immediately followed by a chunk with the same filename
(the stop condition of the merge loop — no chunk remains mergeable). -/
theorem C5_merge_idempotent (cs : List DocumentChunk) (m : Nat) :
    mergeSmallChunks (mergeSmallChunks cs m) m = mergeSmallChunks cs m ∧
    List.Chain' (fun a b => a.content.length < m →
      b.metadata.filename ≠ a.metadata.filename) (mergeSmallChunks cs m) :=
  ⟨mergeSmallChunks_of_chain _ m (mergeSmallChunks_chain cs m),
   mergeSmallChunks_chain cs m⟩

/-! ### C4 -/

theorem trimL_length_le (l : List Char) : (trimL l).length ≤ l.length := by
  unfold trimL
  rw [List.length_reverse]
  calc ((l.dropWhile jsIsWS).reverse.dropWhile jsIsWS).length
      ≤ (l.dropWhile jsIsWS).reverse.length :=
        (List.dropWhile_sublist jsIsWS).length_le
    _ = (l.dropWhile jsIsWS).length := List.length_reverse _
    _ ≤ l.length := (List.dropWhile_sublist jsIsWS).length_le

theorem jsSliceFrom_length_le (l : List Char) (s : Int) :
    (jsSliceFrom l s).length ≤ l.length := by
  unfold jsSliceFrom
  split <;> simp

theorem getOverlapText_length_le (t : List Char) (k : Nat) (hk : 1 ≤ k) :
    (getOverlapText t k).length ≤ k := by
  unfold getOverlapText
  by_cases hlen : t.length ≤ k
  · rw [if_pos hlen]
    exact hlen
  · rw [if_neg hlen]
    push_neg at hlen
    dsimp only
    have hend : (jsSliceFrom t (-(k : Int))).length = k := by
      unfold jsSliceFrom
      rw [if_pos (by omega), List.length_drop]
      omega
    split
    · exact le_trans (trimL_length_le _)
        (le_trans (jsSliceFrom_length_le _ _) (le_of_eq hend))
    · exact le_of_eq hend

theorem stepSentence_bound (fn : List Char) (S : Nat) (s : List Char)
    (hs : (trimL s).length + 1 ≤ S) (st : ChunkState)
    (h1 : st.current.length ≤ 100 + S)
    (h2 : ∀ c ∈ st.chunks, c.content.length ≤ 100 + S) :
    (stepSentence fn ⟨100, 20, 100⟩ st s).current.length ≤ 100 + S ∧
    ∀ c ∈ (stepSentence fn ⟨100, 20, 100⟩ st s).chunks,
      c.content.length ≤ 100 + S := by
  unfold stepSentence
  dsimp only
  split
  · rename_i hcond
    constructor
    · have hov := getOverlapText_length_le st.current 20 (by omega)
      simp only [List.length_append, List.length_cons, List.length_nil]
        at hcond ⊢
      omega
    · intro c hc
      rw [List.mem_append] at hc
      rcases hc with hc | hc
      · exact h2 c hc
      · simp only [List.mem_singleton] at hc
        subst hc
        exact le_trans (trimL_length_le _) h1
  · rename_i hcond
    refine ⟨?_, h2⟩
    have hite : (if st.current.isEmpty then ([] : List Char) else [' ']).length ≤ 1 := by
      split <;> simp
    simp only [List.length_append, List.length_cons, List.length_nil]
      at hcond ⊢
    omega

theorem foldl_step_bound (fn : List Char) (S : Nat) (ss : List (List Char))
    (hss : ∀ s ∈ ss, (trimL s).length + 1 ≤ S) (st : ChunkState)
    (h1 : st.current.length ≤ 100 + S)
    (h2 : ∀ c ∈ st.chunks, c.content.length ≤ 100 + S) :
    (ss.foldl (stepSentence fn ⟨100, 20, 100⟩) st).current.length ≤ 100 + S ∧
    ∀ c ∈ (ss.foldl (stepSentence fn ⟨100, 20, 100⟩) st).chunks,
      c.content.length ≤ 100 + S := by
  induction ss generalizing st with
  | nil => exact ⟨h1, h2⟩
  | cons s ss' ih =>
    simp only [List.foldl_cons]
    have hstep := stepSentence_bound fn S s (hss s (by simp)) st h1 h2
    exact ih (fun x hx => hss x (by simp [hx])) _ hstep.1 hstep.2

theorem le_foldr_max (l : List Nat) (x : Nat) (hx : x ∈ l) :
    x ≤ l.foldr max 0 := by
  induction l with
  | nil => simp at hx
  | cons a l ih =>
    rcases List.mem_cons.mp hx with h | h
    · subst h
      exact le_max_left _ _
    · exact le_trans (ih h) (le_max_right _ _)

theorem le_maxSentenceLen (text s : List Char) (hs : s ∈ sentencesOf text) :
    (trimL s).length + 1 ≤ maxSentenceLen text :=
  le_foldr_max _ _ (List.mem_map_of_mem _ hs)

/-- C4: with `chunkSize = 100`, `chunkOverlap = 20` and the default
`minChunkSize = 100`, every chunk's content length is at most
`100 + maxSentenceLen text`, the slack of one whole (trimmed, dot-appended)
sentence appended after the threshold. -/
theorem C4_chunk_size_bound (text fn : List Char) (c : DocumentChunk)
    (hc : c ∈ chunkText text fn ⟨100, 20, 100⟩) :
    c.content.length ≤ 100 + maxSentenceLen text := by
  unfold chunkText at hc
  split at hc
  · exact absurd hc (by simp)
  · split at hc
    · exact absurd hc (by simp)
    · unfold finalizeTotal at hc
      rw [List.mem_map] at hc
      obtain ⟨b, hb, rfl⟩ := hc
      show b.content.length ≤ _
      unfold chunkCore at hb
      dsimp only at hb
      have hinv := foldl_step_bound fn (maxSentenceLen text) (sentencesOf text)
        (fun s hs => le_maxSentenceLen text s hs) ⟨[], [], 0⟩ (by simp) (by simp)
      split at hb
      · rw [List.mem_append] at hb
        rcases hb with hb | hb
        · exact hinv.2 b hb
        · simp only [List.mem_singleton] at hb
          subst hb
          exact le_trans (trimL_length_le _) hinv.1
      · exact hinv.2 b hb

/-- Witness for C4 at a concrete text. -/
theorem C4_chunk_size_bound_witness :
    (⟨strL "f-chunk-0", strL "Hello there.", ⟨strL "f", none, 0, 1⟩⟩ :
        DocumentChunk) ∈
      chunkText (strL "Hello there.") (strL "f") ⟨100, 20, 100⟩ ∧
    (⟨strL "f-chunk-0", strL "Hello there.", ⟨strL "f", none, 0, 1⟩⟩ :
        DocumentChunk).content.length ≤
      100 + maxSentenceLen (strL "Hello there.") :=
  ⟨by decide, C4_chunk_size_bound (strL "Hello there.") (strL "f") _ (by decide)⟩

/-! ### C6 -/

theorem mapIdxFrom_eq_enumFrom (f : Nat → α → β) (k : Nat) (l : List α) :
    mapIdxFrom f k l = (List.enumFrom k l).map (fun p => f p.1 p.2) := by
  induction l generalizing k with
  | nil => rfl
  | cons a as ih => simp [mapIdxFrom, List.enumFrom, ih]

theorem foldl_append_eq_flatten (L : List (List α)) (acc : List α) :
    L.foldl (fun a b => a ++ b) acc = acc ++ L.flatten := by
  induction L generalizing acc with
  | nil => simp
  | cons l L ih => simp [ih]

/-- C6: `chunkByPages` equals the page-order concatenation of per-page
`chunkText` results with ids relabelled to
`${filename}-page${p}-chunk-${i}` and `metadata.page` set (the statement
`chunkByPagesSpec`); on `["Page one text.", "Page two text."]` with filename
`"doc.pdf"` the two chunks carry `page` 1 and 2 and ids
`doc.pdf-page1-chunk-0` / `doc.pdf-page2-chunk-0`. -/
theorem C6_chunkByPages_spec (pages : List (List Char)) (filename : List Char)
    (opts : ChunkingOptions) :
    chunkByPages pages filename opts = chunkByPagesSpec pages filename opts ∧
    (chunkByPages [strL "Page one text.", strL "Page two text."]
        (strL "doc.pdf") DEFAULT_CHUNKING_OPTIONS).map
        (fun c => (c.id, c.metadata.page)) =
      [(strL "doc.pdf-page1-chunk-0", some 1),
       (strL "doc.pdf-page2-chunk-0", some 2)] := by
  constructor
  · unfold chunkByPages chunkByPagesSpec
    rw [foldl_append_eq_flatten]
    simp only [List.nil_append, mapIdxFrom_eq_enumFrom]
    rfl
  · decide

/-! ### C9: decimal representations -/

theorem digitCh_toNat (d : Nat) (hd : d < 10) : (digitCh d).toNat = 48 + d := by
  interval_cases d <;> rfl

theorem digitCh_ne_dash (d : Nat) (hd : d < 10) : digitCh d ≠ '-' := by
  interval_cases d <;> decide

theorem evalD_append_digit (l : List Char) (c : Char) :
    evalD (l ++ [c]) = evalD l * 10 + (c.toNat - 48) := by
  unfold evalD
  rw [List.foldl_append]
  rfl

theorem evalD_natReprAux (fuel : Nat) :
    ∀ n : Nat, n < fuel → evalD (natReprAux fuel n) = n := by
  induction fuel with
  | zero => omega
  | succ f ih =>
    intro n hn
    rw [natReprAux]
    split
    · rename_i h10
      show evalD [digitCh n] = n
      unfold evalD
      simp only [List.foldl_cons, List.foldl_nil]
      rw [digitCh_toNat n h10]
      omega
    · rename_i h10
      push_neg at h10
      have hdiv : n / 10 < f := by
        have := Nat.div_lt_self (show 0 < n by omega) (show 1 < 10 by omega)
        omega
      rw [evalD_append_digit, ih (n / 10) hdiv,
        digitCh_toNat (n % 10) (Nat.mod_lt _ (by omega))]
      omega

theorem natRepr_inj : Function.Injective natRepr := by
  intro a b h
  have ha := evalD_natReprAux (a + 1) a (by omega)
  have hb := evalD_natReprAux (b + 1) b (by omega)
  unfold natRepr at h
  rw [h, hb] at ha
  exact ha.symm

theorem natReprAux_ne_dash (fuel : Nat) :
    ∀ (n : Nat) (c : Char), c ∈ natReprAux fuel n → c ≠ '-' := by
  induction fuel with
  | zero =>
    intro n c hc
    simp [natReprAux] at hc
  | succ f ih =>
    intro n c hc
    rw [natReprAux] at hc
    split at hc
    · rename_i h10
      rw [List.mem_singleton] at hc
      subst hc
      exact digitCh_ne_dash n h10
    · rename_i h10
      push_neg at h10
      rw [List.mem_append] at hc
      rcases hc with hc | hc
      · exact ih _ c hc
      · rw [List.mem_singleton] at hc
        subst hc
        exact digitCh_ne_dash _ (Nat.mod_lt _ (by omega))

theorem natRepr_ne_dash (n : Nat) (c : Char) (hc : c ∈ natRepr n) : c ≠ '-' :=
  natReprAux_ne_dash (n + 1) n c hc

theorem append_dash_inj (d1 : List Char) (h1 : ∀ c ∈ d1, c ≠ '-') :
    ∀ (d2 t1 t2 : List Char), (∀ c ∈ d2, c ≠ '-') →
      d1 ++ '-' :: t1 = d2 ++ '-' :: t2 → d1 = d2 ∧ t1 = t2 := by
  induction d1 with
  | nil =>
    intro d2 t1 t2 h2 heq
    cases d2 with
    | nil => simpa using heq
    | cons c2 d2' =>
      simp only [List.nil_append, List.cons_append, List.cons.injEq] at heq
      exact absurd heq.1.symm (h2 c2 (by simp))
  | cons c1 d1' ih =>
    intro d2 t1 t2 h2 heq
    cases d2 with
    | nil =>
      simp only [List.cons_append, List.nil_append, List.cons.injEq] at heq
      exact absurd heq.1 (h1 c1 (by simp))
    | cons c2 d2' =>
      simp only [List.cons_append, List.cons.injEq] at heq
      obtain ⟨hc, hrest⟩ := heq
      obtain ⟨hd, ht⟩ := ih (fun c hc' => h1 c (by simp [hc'])) d2' t1 t2
        (fun c hc' => h2 c (by simp [hc'])) hrest
      exact ⟨by rw [hc, hd], ht⟩

theorem chunkIdOf_inj (fn : List Char) : Function.Injective (chunkIdOf fn) := by
  intro i j h
  unfold chunkIdOf at h
  rw [List.append_assoc, List.append_assoc] at h
  exact natRepr_inj (List.append_cancel_left (List.append_cancel_left h))

theorem pageIdOf_inj (fn : List Char) (p1 i1 p2 i2 : Nat)
    (h : pageIdOf fn p1 i1 = pageIdOf fn p2 i2) : p1 = p2 ∧ i1 = i2 := by
  unfold pageIdOf at h
  simp only [List.append_assoc] at h
  have h2 := List.append_cancel_left (List.append_cancel_left h)
  rw [show strL "-chunk-" = '-' :: strL "chunk-" from rfl] at h2
  simp only [List.cons_append] at h2
  obtain ⟨hp, hi⟩ := append_dash_inj (natRepr p1) (natRepr_ne_dash p1) _ _ _
    (natRepr_ne_dash p2) h2
  exact ⟨natRepr_inj hp, natRepr_inj (List.append_cancel_left hi)⟩

/-! ### C9: id shapes of `chunkText` and `chunkByPages` -/

/-- Invariant of the sentence loop: `chunkIndex` counts the pushed chunks, and
their ids are `${filename}-chunk-0 .. ${filename}-chunk-(count-1)` in order. -/
def IdInv (fn : List Char) (st : ChunkState) : Prop :=
  st.chunkIndex = st.chunks.length ∧
  st.chunks.map (fun c => c.id) =
    (List.range st.chunks.length).map (chunkIdOf fn)

theorem stepSentence_idInv (fn : List Char) (opts : ChunkingOptions)
    (st : ChunkState) (s : List Char) (h : IdInv fn st) :
    IdInv fn (stepSentence fn opts st s) := by
  obtain ⟨h1, h2⟩ := h
  unfold stepSentence
  dsimp only
  split
  · constructor
    · simp [h1]
    · simp only [List.map_append, List.length_append, List.length_cons,
        List.length_nil, h2]
      rw [List.range_succ, List.map_append, h1]
      rfl
  · exact ⟨h1, h2⟩

theorem foldl_idInv (fn : List Char) (opts : ChunkingOptions)
    (ss : List (List Char)) (st : ChunkState) (h : IdInv fn st) :
    IdInv fn (ss.foldl (stepSentence fn opts) st) := by
  induction ss generalizing st with
  | nil => exact h
  | cons s ss ih =>
    rw [List.foldl_cons]
    exact ih _ (stepSentence_idInv fn opts st s h)

theorem chunkCore_ids (text fn : List Char) (opts : ChunkingOptions) :
    (chunkCore text fn opts).map (fun c => c.id) =
      (List.range (chunkCore text fn opts).length).map (chunkIdOf fn) := by
  unfold chunkCore
  dsimp only
  obtain ⟨h1, h2⟩ := foldl_idInv fn opts (sentencesOf text) ⟨[], [], 0⟩ ⟨rfl, rfl⟩
  split
  · rw [List.map_append, h2, List.length_append]
    simp only [List.length_cons, List.length_nil]
    rw [List.range_succ, List.map_append, h1]
    rfl
  · exact h2

theorem chunkText_ids_nodup (text fn : List Char) (opts : ChunkingOptions) :
    ((chunkText text fn opts).map (fun c => c.id)).Nodup := by
  unfold chunkText
  split
  · simp
  · split
    · simp
    · have hids : (finalizeTotal (chunkCore text fn opts)).map (fun c => c.id) =
          (chunkCore text fn opts).map (fun c => c.id) := by
        unfold finalizeTotal
        rw [List.map_map]
        rfl
      rw [hids, chunkCore_ids]
      exact (List.nodup_range _).map (chunkIdOf_inj fn)

theorem relabel_ids (fn : List Char) (p : Nat) (cs : List DocumentChunk) :
    ∀ k : Nat,
      (mapIdxFrom (fun i ch => relabelChunk fn p i ch) k cs).map (fun c => c.id) =
        (List.range' k cs.length).map (pageIdOf fn p) := by
  induction cs with
  | nil => intro k; rfl
  | cons c cs ih =>
    intro k
    rw [mapIdxFrom, List.map_cons, List.length_cons, List.range'_succ,
      List.map_cons, ih (k + 1)]
    rfl

theorem pages_flat_ids (fn : List Char) (opts : ChunkingOptions)
    (pages : List (List Char)) :
    ∀ k : Nat,
      ((((mapIdxFrom (fun pageIndex pageText =>
            mapIdxFrom (fun ci ch => relabelChunk fn (pageIndex + 1) ci ch) 0
              (chunkText pageText fn opts)) k pages).flatten).map
          (fun c => c.id)).Nodup ∧
       ∀ x ∈ ((mapIdxFrom (fun pageIndex pageText =>
            mapIdxFrom (fun ci ch => relabelChunk fn (pageIndex + 1) ci ch) 0
              (chunkText pageText fn opts)) k pages).flatten).map (fun c => c.id),
         ∃ p i, x = pageIdOf fn p i ∧ k + 1 ≤ p) := by
  induction pages with
  | nil =>
    intro k
    constructor
    · simp [mapIdxFrom]
    · simp [mapIdxFrom]
  | cons pg pages ih =>
    intro k
    simp only [mapIdxFrom, List.flatten_cons, List.map_append]
    constructor
    · rw [List.nodup_append]
      refine ⟨?_, (ih (k + 1)).1, ?_⟩
      · rw [relabel_ids]
        exact (List.nodup_range' _ _).map
          (fun i j hij => (pageIdOf_inj fn _ i _ j hij).2)
      · intro x hx1 hx2
        rw [relabel_ids] at hx1
        rw [List.mem_map] at hx1
        obtain ⟨i, _, rfl⟩ := hx1
        obtain ⟨p, j, hpj, hp⟩ := (ih (k + 1)).2 _ hx2
        obtain ⟨hpp, _⟩ := pageIdOf_inj fn _ _ _ _ hpj
        omega
    · intro x hx
      rw [List.mem_append] at hx
      rcases hx with hx | hx
      · rw [relabel_ids] at hx
        rw [List.mem_map] at hx
        obtain ⟨i, _, rfl⟩ := hx
        exact ⟨k + 1, i, rfl, by omega⟩
      · obtain ⟨p, i, hpi, hp⟩ := (ih (k + 1)).2 x hx
        exact ⟨p, i, hpi, by omega⟩

theorem chunkByPages_ids_nodup (pages : List (List Char)) (fn : List Char)
    (opts : ChunkingOptions) :
    ((chunkByPages pages fn opts).map (fun c => c.id)).Nodup := by
  unfold chunkByPages
  rw [foldl_append_eq_flatten]
  simp only [List.nil_append]
  exact (pages_flat_ids fn opts pages 0).1

/-- C9: the ids of the chunks returned by a single `chunkText` call are
pairwise distinct, and so are the ids of the chunks returned by a single
`chunkByPages` call. -/
theorem C9_ids_distinct (text fn : List Char) (opts : ChunkingOptions)
    (pages : List (List Char)) :
    ((chunkText text fn opts).map (fun c => c.id)).Nodup ∧
    ((chunkByPages pages fn opts).map (fun c => c.id)).Nodup :=
  ⟨chunkText_ids_nodup text fn opts, chunkByPages_ids_nodup pages fn opts⟩

end AwsTitan
